import Mathlib

/-!
# Verification of the conman managed-file metadata engine

A shallow embedding of the metadata engine of the `conman` configuration-file
manager: the metadata store (`src/file.rs`), the cache reconciler
(`FileManager::verify_cache`, `FileManager::dangling_files`), the path codec
(`serialize_metadata_path` / `deserialize_metadata_path`), the drift detector
(`FileManager::source_was_updated`), the branch cache
(`src/cache/branch.rs`), and the command loops of `src/conman.rs`
(`add`, `remove`, `collect`, `verify_local_file_cache`).

Paths are modelled as lists of characters (`Path`); Rust `PathBuf` equality
becomes list equality.
-/

namespace Conman

/-- A filesystem path, modelled as its character content (Rust `PathBuf`). -/
abbrev Path : Type := List Char

/-- `FileData` from `src/file.rs`: one tracked file of the metadata store. -/
structure FileData where
  system_path : Path
  repo_path : Path
  encrypted : Bool
deriving DecidableEq, Repr

/-- `CacheVerdict` from `src/file.rs` (lines 13-18). -/
inductive CacheVerdict where
  | FullPopulate : CacheVerdict
  | HandleDangling : List FileData → CacheVerdict
  | DoNothing : CacheVerdict
deriving DecidableEq, Repr

/-- The file list of a `Metadata` document (`struct Metadata { files: Vec<FileData> }`). -/
abbrev Metadata : Type := List FileData

/-- `FileManager::dangling_files` (`src/file.rs` lines 92-105): the entries of
`other` whose `system_path` matches no entry of `store`, in the order they
appear in `other`. -/
def dangling_files (store : Metadata) (other : Metadata) : List FileData :=
  other.filter fun theirs =>
    (store.find? fun ours => ours.system_path == theirs.system_path).isNone

/-- `FileManager::verify_cache` (`src/file.rs` lines 70-90), with the cache
document already read into `cache`. -/
def verify_cache (store : Metadata) (cache : Metadata) : CacheVerdict :=
  if cache.isEmpty && !store.isEmpty then .FullPopulate
  else if cache.isEmpty && store.isEmpty then .DoNothing
  else
    let dangling := dangling_files store cache
    if dangling.isEmpty then .DoNothing
    else .HandleDangling dangling

/-- The decision procedure exactly as the spec words it (section 4.5):
Dangling is the set of snapshot entries whose `system_path` is not among the
system paths of the store entries. -/
def spec_verdict (store : Metadata) (cache : Metadata) : CacheVerdict :=
  if cache = [] ∧ store ≠ [] then .FullPopulate
  else if cache = [] ∧ store = [] then .DoNothing
  else
    let dangling :=
      cache.filter fun f => decide (f.system_path ∉ store.map FileData.system_path)
    if dangling = [] then .DoNothing
    else .HandleDangling dangling

/-- The entry-wise filters of `dangling_files` and of the Dangling computation
as the spec words it agree. -/
lemma dangling_files_eq_spec_filter (store cache : Metadata) :
    dangling_files store cache =
      cache.filter fun f => decide (f.system_path ∉ store.map FileData.system_path) := by
  unfold dangling_files
  refine List.filter_congr ?_
  intro x _
  rw [Bool.eq_iff_iff]
  simp [Option.isNone_iff_eq_none, List.find?_eq_none, List.mem_map]

/-- C1: `verify_cache` returns exactly the verdict of the decision
procedure: FullPopulate when the snapshot is empty and the store is not,
DoNothing when both are empty, otherwise DoNothing when there are no dangling
entries and HandleDangling of the dangling entries (snapshot entries whose
`system_path` matches no store entry), listed in snapshot order. -/
theorem verify_cache_eq_spec_verdict (store cache : Metadata) :
    verify_cache store cache = spec_verdict store cache := by
  unfold verify_cache spec_verdict
  rw [dangling_files_eq_spec_filter]
  by_cases hc : cache = [] <;> by_cases hs : store = [] <;>
    simp [hc, hs, List.isEmpty_iff]

/-- The filesystem metadata `source_was_updated` looks at (`std::fs::metadata`):
a byte length and a modification time.  Modification times are modelled as
naturals; Rust compares `SystemTime` values with the usual total order. -/
structure FsMetadata where
  len : Nat
  modified : Nat
deriving DecidableEq, Repr

/-- `FileManager::source_was_updated` (`src/file.rs` lines 234-259), with the
two `std::fs::metadata` results already read: sizes differ means updated;
otherwise updated exactly when the source mtime is strictly later. -/
def source_was_updated (source dest : FsMetadata) : Bool :=
  if source.len ≠ dest.len then true
  else if dest.modified < source.modified then true
  else false

/-- C7: the drift check returns true whenever the two sizes differ, and false
whenever the sizes are equal and the source (system) mtime is not later than
the destination (mirror) mtime. -/
theorem source_was_updated_boundary (s d : FsMetadata) :
    (s.len ≠ d.len → source_was_updated s d = true) ∧
    (s.len = d.len → s.modified ≤ d.modified → source_was_updated s d = false) := by
  unfold source_was_updated
  constructor
  · intro h
    simp [h]
  · intro h1 h2
    simp [h1, Nat.not_lt.mpr h2]

/-- Witness for C7 at concrete metadata values: sizes 1 ≠ 2 give true; equal
sizes with source mtime 5 ≤ 7 give false. -/
theorem source_was_updated_boundary_witness :
    source_was_updated ⟨1, 0⟩ ⟨2, 0⟩ = true ∧
      source_was_updated ⟨3, 5⟩ ⟨3, 7⟩ = false :=
  ⟨(source_was_updated_boundary ⟨1, 0⟩ ⟨2, 0⟩).1 (by decide),
   (source_was_updated_boundary ⟨3, 5⟩ ⟨3, 7⟩).2 rfl (by decide)⟩

/-- `BranchCache` from `src/cache/branch.rs` (lines 14-18): a branch name and
the system paths recorded for that branch. -/
structure BranchCache where
  name : List Char
  files : List Path
deriving DecidableEq, Repr

/-- `BranchCache::has_changes` (`src/cache/branch.rs` lines 80-88): true when
some recorded file has no store entry with an equal `system_path`. -/
def has_changes (cache : BranchCache) (metadata : List FileData) : Bool :=
  cache.files.any fun file =>
    (metadata.find? fun entry => entry.system_path == file).isNone

/-- Counterexample to C10: the branch cache records one file and the store is
empty, so not every recorded file can be matched; the claim then demands
`has_changes` return false, but the code returns true (the polarity of the
contract is inverted, and matching is by `system_path` equality, not by
mirror-path suffix). -/
theorem has_changes_counterexample :
    has_changes ⟨"main".data, ["/a".data]⟩ [] = true := by decide

/-- C10 amended: `has_changes` returns true exactly when some file recorded in
the branch cache has no entry in the current store with an equal
`system_path`; equivalently it returns false exactly when every recorded file
is matched by the `system_path` of some store entry. -/
theorem has_changes_true_iff (c : BranchCache) (m : List FileData) :
    has_changes c m = true ↔ ∃ f ∈ c.files, ∀ e ∈ m, e.system_path ≠ f := by
  unfold has_changes
  simp [List.any_eq_true, Option.isNone_iff_eq_none, List.find?_eq_none]

/-- `FileManager::is_already_managed` (`src/file.rs` lines 296-303; called
`file_is_already_managed` by `src/conman.rs`): linear scan for a matching
`system_path`. -/
def file_is_already_managed (m : Metadata) (p : Path) : Bool :=
  m.any fun f => f.system_path == p

/-- `manage_file` (spec 4.2 `manage`; `FileManager::add_file_to_metadata`,
`src/file.rs` lines 284-292): append the entry to the collection. -/
def manage_file (m : Metadata) (fd : FileData) : Metadata :=
  m ++ [fd]

/-- `unmanage_file` (`FileManager::remove`, `src/file.rs` lines 357-380):
find the position of the first entry with the given `system_path` and remove
it; `none` when no entry matches. -/
def unmanage_file (m : Metadata) (p : Path) : Option Metadata :=
  match m.findIdx? (fun f => f.system_path == p) with
  | none => none
  | some i => some (m.eraseIdx i)

/-- The add loop of `src/conman.rs` `add` (lines 229-246): each source is
skipped-and-aborted (early `return`, before `persist`) when already managed,
otherwise appended with its destination path and the encrypt flag.  `none`
models the early return, in which case the store document is left unchanged. -/
def add_loop (m : Metadata) (sources : List (Path × Path)) (encrypt : Bool) :
    Option Metadata :=
  match sources with
  | [] => some m
  | (src, dst) :: rest =>
    if file_is_already_managed m src then none
    else add_loop (manage_file m ⟨src, dst, encrypt⟩) rest encrypt

/-- The persisted outcome of `src/conman.rs` `add` (lines 226-253): the loop
result when it runs to completion, the unchanged store when the early return
skips `persist`. -/
def add_command (m : Metadata) (sources : List (Path × Path)) (encrypt : Bool) :
    Metadata :=
  (add_loop m sources encrypt).getD m

/-- The remove loop of `src/conman.rs` `remove` (lines 283-296): each file is
unmanaged in turn; a file with no matching entry early-returns before
`persist`, leaving the store document unchanged (`none`). -/
def remove_loop (m : Metadata) (files : List Path) : Option Metadata :=
  match files with
  | [] => some m
  | p :: rest =>
    match unmanage_file m p with
    | none => none
    | some m2 => remove_loop m2 rest

/-- The persisted outcome of `src/conman.rs` `remove` (lines 283-296). -/
def remove_command (m : Metadata) (files : List Path) : Metadata :=
  (remove_loop m files).getD m

/-- A store-mutating command: `conman add` or `conman remove`. -/
inductive StoreOp where
  | add : List (Path × Path) → Bool → StoreOp
  | remove : List Path → StoreOp

/-- Run one store-mutating command on the persisted store. -/
def apply_store_op (m : Metadata) : StoreOp → Metadata
  | .add sources encrypt => add_command m sources encrypt
  | .remove files => remove_command m files

/-- Run a sequence of add/remove commands starting from the empty store. -/
def apply_store_ops (ops : List StoreOp) : Metadata :=
  ops.foldl apply_store_op []

/-- No two entries of the store share a `system_path`. -/
def unique_system_paths (m : Metadata) : Prop :=
  (m.map FileData.system_path).Nodup

lemma unique_system_paths_manage {m : Metadata} {src dst : Path} {enc : Bool}
    (h : unique_system_paths m) (hnot : file_is_already_managed m src = false) :
    unique_system_paths (manage_file m ⟨src, dst, enc⟩) := by
  have hmem : src ∉ m.map FileData.system_path := by
    simp only [file_is_already_managed, List.any_eq_false, beq_iff_eq] at hnot
    simp only [List.mem_map]
    rintro ⟨f, hf, rfl⟩
    exact hnot f hf rfl
  simp only [unique_system_paths, manage_file, List.map_append, List.map_cons,
    List.map_nil, List.nodup_append, List.nodup_cons, List.nodup_nil,
    List.disjoint_singleton]
  exact ⟨h, by simp, hmem⟩

lemma unique_system_paths_add_loop {sources : List (Path × Path)} {enc : Bool} :
    ∀ {m m' : Metadata}, unique_system_paths m →
      add_loop m sources enc = some m' → unique_system_paths m' := by
  induction sources with
  | nil =>
    intro m m' h heq
    simp only [add_loop, Option.some.injEq] at heq
    exact heq ▸ h
  | cons sd rest ih =>
    intro m m' h heq
    simp only [add_loop] at heq
    split at heq
    · exact absurd heq (by simp)
    · exact ih (unique_system_paths_manage h (by simp_all)) heq

lemma unique_system_paths_unmanage {m m' : Metadata} {p : Path}
    (heq : unmanage_file m p = some m') (h : unique_system_paths m) :
    unique_system_paths m' := by
  simp only [unmanage_file] at heq
  split at heq
  · exact absurd heq (by simp)
  · cases heq
    exact ((m.eraseIdx_sublist _).map FileData.system_path).nodup h

lemma unique_system_paths_remove_loop {files : List Path} :
    ∀ {m m' : Metadata}, unique_system_paths m →
      remove_loop m files = some m' → unique_system_paths m' := by
  induction files with
  | nil =>
    intro m m' h heq
    simp only [remove_loop, Option.some.injEq] at heq
    exact heq ▸ h
  | cons p rest ih =>
    intro m m' h heq
    simp only [remove_loop] at heq
    split at heq
    · exact absurd heq (by simp)
    · next m2 hm2 => exact ih (unique_system_paths_unmanage hm2 h) heq

lemma unique_system_paths_apply_store_op {m : Metadata} (op : StoreOp)
    (h : unique_system_paths m) : unique_system_paths (apply_store_op m op) := by
  cases op with
  | add sources encrypt =>
    simp only [apply_store_op, add_command]
    cases heq : add_loop m sources encrypt with
    | none => exact h
    | some m' => exact unique_system_paths_add_loop h heq
  | remove files =>
    simp only [apply_store_op, remove_command]
    cases heq : remove_loop m files with
    | none => exact h
    | some m' => exact unique_system_paths_remove_loop h heq

/-- C2: starting from the empty store, no sequence of add and remove commands
ever produces a store with two entries sharing a `system_path`. -/
theorem store_system_paths_unique (ops : List StoreOp) :
    unique_system_paths (apply_store_ops ops) := by
  suffices h : ∀ (m : Metadata), unique_system_paths m →
      unique_system_paths (ops.foldl apply_store_op m) from
    h [] (by simp [unique_system_paths])
  induction ops with
  | nil => intro m h; exact h
  | cons op rest ih =>
    intro m h
    exact ih _ (unique_system_paths_apply_store_op op h)

/-- The three per-entry choices offered while resolving a `HandleDangling`
verdict (`src/conman.rs` lines 458-484). -/
inductive DanglingChoice where
  | skip : DanglingChoice
  | delete : DanglingChoice
  | manage : DanglingChoice
deriving DecidableEq, Repr

/-- The resolution loop of `verify_local_file_cache` (`src/conman.rs` lines
460-485): `manage` copies the file and appends it to the store via
`manage_file`; `delete` removes the live file from the filesystem and leaves
the store alone; `skip` does nothing. -/
def resolve_dangling (m : Metadata) :
    List FileData → List DanglingChoice → Metadata
  | [], _ => m
  | f :: fs, cs =>
    match cs with
    | [] => m
    | c :: cs2 =>
      match c with
      | .manage => resolve_dangling (manage_file m f) fs cs2
      | _ => resolve_dangling m fs cs2

/-- `verify_local_file_cache` (`src/conman.rs` lines 441-494), at the level of
the two persisted documents: returns the resulting (store, cache snapshot)
pair.  FullPopulate rewrites the cache from the store; HandleDangling runs the
resolution loop, persists the store and rewrites the cache from it; DoNothing
touches neither document. -/
def verify_local_file_cache (store cache : Metadata)
    (choices : List DanglingChoice) : Metadata × Metadata :=
  match verify_cache store cache with
  | .FullPopulate => (store, store)
  | .HandleDangling dangling =>
    let m := resolve_dangling store dangling choices
    (m, m)
  | .DoNothing => (store, cache)

lemma dangling_files_self (m : Metadata) : dangling_files m m = [] := by
  unfold dangling_files
  rw [List.filter_eq_nil_iff]
  intro x hx
  simp only [Bool.not_eq_true, Option.isNone_eq_false_iff, Option.isSome_iff_ne_none,
    ne_eq, List.find?_eq_none, not_forall]
  exact ⟨x, hx, by simp⟩

/-- Reconciling a store against a cache snapshot equal to it yields
DoNothing. -/
lemma verify_cache_self (m : Metadata) : verify_cache m m = .DoNothing := by
  unfold verify_cache
  cases hm : m.isEmpty <;> simp [hm, dangling_files_self]

/-- C3: whenever reconciliation yields HandleDangling, resolving it with any
mix of choices, persisting the store and rewriting the cache snapshot from the
updated store makes an immediately following reconciliation of the resulting
documents return DoNothing. -/
theorem handle_dangling_convergence (store cache d : Metadata)
    (choices : List DanglingChoice)
    (h : verify_cache store cache = .HandleDangling d) :
    verify_cache (verify_local_file_cache store cache choices).1
      (verify_local_file_cache store cache choices).2 = .DoNothing := by
  unfold verify_local_file_cache
  rw [h]
  exact verify_cache_self _

/-- Witness for C3: one dangling entry resolved with `delete`. -/
theorem handle_dangling_convergence_witness :
    verify_cache
      (verify_local_file_cache [] [⟨"/a".data, "/r/a".data, false⟩] [.delete]).1
      (verify_local_file_cache [] [⟨"/a".data, "/r/a".data, false⟩] [.delete]).2
      = .DoNothing :=
  handle_dangling_convergence [] [⟨"/a".data, "/r/a".data, false⟩]
    [⟨"/a".data, "/r/a".data, false⟩] [.delete] (by decide)

/-- Counterexample to C4: the snapshot holds one dangling entry and the user
chooses `skip`; the claim says the next reconciliation reports that entry
again in a HandleDangling verdict, but because the cache snapshot is rewritten
from the updated store the next reconciliation returns DoNothing. -/
theorem skip_stays_dangling_counterexample :
    verify_cache [] [⟨"/b".data, "/r/b".data, true⟩]
        = .HandleDangling [⟨"/b".data, "/r/b".data, true⟩] ∧
      verify_cache
        (verify_local_file_cache [] [⟨"/b".data, "/r/b".data, true⟩] [.skip]).1
        (verify_local_file_cache [] [⟨"/b".data, "/r/b".data, true⟩] [.skip]).2
        = .DoNothing := by
  constructor <;> decide

lemma resolve_dangling_skip (d : List FileData) :
    ∀ (m : Metadata) (n : Nat),
      resolve_dangling m d (List.replicate n .skip) = m := by
  induction d with
  | nil => intro m n; rfl
  | cons f fs ih =>
    intro m n
    cases n with
    | zero => rfl
    | succ k => simpa [resolve_dangling, List.replicate_succ] using ih m k

/-- C4 amended: an entry resolved with `skip` leaves the store untouched, but
it does not remain dangling: the cache snapshot is rewritten from the updated
store, so the next reconciliation returns DoNothing and the entry is not
reported again. -/
theorem skip_resolution_forgets (store cache d : Metadata)
    (h : verify_cache store cache = .HandleDangling d) :
    resolve_dangling store d (List.replicate d.length .skip) = store ∧
      verify_cache
        (verify_local_file_cache store cache (List.replicate d.length .skip)).1
        (verify_local_file_cache store cache (List.replicate d.length .skip)).2
        = .DoNothing := by
  refine ⟨resolve_dangling_skip d store d.length, ?_⟩
  unfold verify_local_file_cache
  rw [h]
  exact verify_cache_self _

/-- Witness for the amended C4 at a concrete dangling entry. -/
theorem skip_resolution_forgets_witness :
    resolve_dangling [] [⟨"/c".data, "/r/c".data, false⟩]
        (List.replicate 1 .skip) = [] ∧
      verify_cache
        (verify_local_file_cache [] [⟨"/c".data, "/r/c".data, false⟩]
          (List.replicate 1 .skip)).1
        (verify_local_file_cache [] [⟨"/c".data, "/r/c".data, false⟩]
          (List.replicate 1 .skip)).2 = .DoNothing :=
  skip_resolution_forgets [] [⟨"/c".data, "/r/c".data, false⟩]
    [⟨"/c".data, "/r/c".data, false⟩] (by decide)

/-- The kind of a Rust `std::io::Error` returned by `File::open`. -/
inductive OpenErrorKind where
  | notFound : OpenErrorKind
  | permissionDenied : OpenErrorKind
  | other : OpenErrorKind
deriving DecidableEq, Repr

/-- The errors `read_metadata` can surface: an I/O failure while reading an
opened file, or a TOML parse failure. -/
inductive MetadataError where
  | ioError : MetadataError
  | parseError : MetadataError
deriving DecidableEq, Repr

/-- What the filesystem does when `read_metadata` touches the document:
`File::open` fails with some error kind, or the opened file fails to read, or
the full contents are returned. -/
inductive FsReadOutcome where
  | openFailed : OpenErrorKind → FsReadOutcome
  | readFailed : FsReadOutcome
  | content : List Char → FsReadOutcome
deriving DecidableEq, Repr

/-- `FileManager::read_metadata` (`src/file.rs` lines 51-67), parametrised by
the TOML deserialiser `parse` (`toml::from_str`).  The code matches
`File::open` with `Ok(file) => read + parse` and `Err(_) => default`, so every
open failure — not only file-not-found — yields the empty store; failures
while reading an opened file or parsing propagate with `?`. -/
def read_metadata (parse : List Char → Option Metadata) :
    FsReadOutcome → Except MetadataError Metadata
  | .openFailed _ => .ok []
  | .readFailed => .error .ioError
  | .content s =>
    match parse s with
    | some m => .ok m
    | none => .error .parseError

/-- Counterexample to C8: a permission error on `File::open` is not surfaced
to the caller; the `Err(_)` arm treats it like an absent document and returns
the empty store. -/
theorem read_metadata_counterexample :
    read_metadata (fun _ => none) (.openFailed .permissionDenied)
      = .ok [] := rfl

/-- C8 amended: any failure of `File::open` (absence, permission error, or
any other open error) yields the empty store; a failure while reading an
opened document surfaces an I/O error and a malformed document surfaces a
parse error, never an empty store. -/
theorem read_metadata_error_policy (parse : List Char → Option Metadata) :
    (∀ e, read_metadata parse (.openFailed e) = .ok []) ∧
      read_metadata parse .readFailed = .error .ioError ∧
      (∀ s m, parse s = some m → read_metadata parse (.content s) = .ok m) ∧
      (∀ s, parse s = none →
        read_metadata parse (.content s) = .error .parseError) := by
  refine ⟨fun e => rfl, rfl, fun s m h => ?_, fun s h => ?_⟩
  · simp [read_metadata, h]
  · simp [read_metadata, h]

/-- Witness for the amended C8 with concrete parse functions and contents. -/
theorem read_metadata_error_policy_witness :
    read_metadata (fun _ => some []) (.content "x".data) = .ok [] ∧
      read_metadata (fun _ => none) (.content "x".data) = .error .parseError :=
  ⟨(read_metadata_error_policy (fun _ => some [])).2.2.1 "x".data [] rfl,
   (read_metadata_error_policy (fun _ => none)).2.2.2 "x".data rfl⟩

/-- A filesystem I/O error, identified by some code. -/
structure IoError where
  code : Nat
deriving DecidableEq, Repr

/-- The batch-loop shape shared by `collect` (`src/conman.rs` lines 200-220),
`apply` (lines 319-340) and the dangling-resolution loop of
`verify_local_file_cache` (lines 460-485): each iteration runs fallible file
operations whose outcome is the corresponding list entry, and every such call
ends with `?`.  The result counts the files fully processed; `?` propagates
the first error out of the whole loop. -/
def batch_loop : List (Except IoError Unit) → Except IoError Nat
  | [] => .ok 0
  | r :: rest =>
    match r with
    | .error e => .error e
    | .ok _ =>
      match batch_loop rest with
      | .ok n => .ok (n + 1)
      | .error e => .error e

/-- C9 failing input: in a batch of two files where the operation on the first
fails with an I/O error, the loop aborts with that error and the second file
is never processed — had the loop continued as the claim demands, the second
entry alone would have been processed (second conjunct). -/
theorem batch_loop_aborts_on_first_error :
    batch_loop [.error ⟨3⟩, .ok ()] = .error ⟨3⟩ ∧
      batch_loop [.ok ()] = .ok 1 := by
  constructor <;> rfl

/-- The placeholder token `USER_HOME_AMBIGUATION` (`src/file.rs` line 391). -/
def USER_HOME_AMBIGUATION : List Char := "__user_home__".data

/-- Fuel-driven core of Rust `str::replace`: scan left to right; at each
position where the (non-empty) pattern matches, emit the replacement and skip
the match; otherwise keep the character.  The fuel only bounds recursion depth
— `replace_all` passes the string length, which suffices because every step
consumes at least one character. -/
def replace_all_aux : Nat → List Char → List Char → List Char → List Char
  | 0, s, _, _ => s
  | n + 1, s, pat, rep =>
    match s with
    | [] => []
    | c :: rest =>
      if !pat.isEmpty && pat.isPrefixOf (c :: rest) then
        rep ++ replace_all_aux n ((c :: rest).drop pat.length) pat rep
      else
        c :: replace_all_aux n rest pat rep

/-- Rust `String::replace(pat, rep)`: replace every leftmost non-overlapping
occurrence of `pat`.  (With an empty pattern — unreachable here, since `$HOME`
is a set non-empty string — this model returns the string unchanged.) -/
def replace_all (s pat rep : List Char) : List Char :=
  replace_all_aux s.length s pat rep

/-- `serialize_metadata_path` (`src/file.rs` lines 410-423): when the path
string starts with the user home string, every occurrence of the home string
is replaced by the placeholder token; otherwise the string is kept verbatim. -/
def serialize_metadata_path (home path : List Char) : List Char :=
  if home.isPrefixOf path then replace_all path home USER_HOME_AMBIGUATION
  else path

/-- `deserialize_metadata_path` (`src/file.rs` lines 394-408): when the stored
string starts with the placeholder token, every occurrence of the token is
replaced by the user home string; otherwise the string is parsed verbatim. -/
def deserialize_metadata_path (home s : List Char) : List Char :=
  if USER_HOME_AMBIGUATION.isPrefixOf s then
    replace_all s USER_HOME_AMBIGUATION home
  else s

/-- `occurs_in pat s`: `pat` appears as a contiguous run somewhere in `s`. -/
def occurs_in (pat : List Char) : List Char → Bool
  | [] => pat.isEmpty
  | c :: rest => pat.isPrefixOf (c :: rest) || occurs_in pat rest

lemma replace_all_aux_of_not_occurs {pat rep : List Char} :
    ∀ (n : Nat) (s : List Char), occurs_in pat s = false →
      replace_all_aux n s pat rep = s := by
  intro n
  induction n with
  | zero => intro s _; rfl
  | succ k ih =>
    intro s h
    cases s with
    | nil => rfl
    | cons c rest =>
      simp only [occurs_in, Bool.or_eq_false_iff] at h
      simp [replace_all_aux, h.1, ih rest h.2]

lemma replace_all_aux_nil (n : Nat) (pat rep : List Char) :
    replace_all_aux n [] pat rep = [] := by
  cases n <;> rfl

lemma replace_all_aux_cons_of_match {pat rep t : List Char} (hpat : pat ≠ [])
    (n : Nat) :
    replace_all_aux (n + 1) (pat ++ t) pat rep
      = rep ++ replace_all_aux n t pat rep := by
  obtain ⟨p, pr, rfl⟩ : ∃ p pr, pat = p :: pr := by
    cases pat with
    | nil => exact absurd rfl hpat
    | cons p pr => exact ⟨p, pr, rfl⟩
  have hpre : (p :: pr).isPrefixOf ((p :: pr) ++ t) = true :=
    ( List.isPrefixOf_iff_prefix).mpr (List.prefix_append _ _)
  rw [List.cons_append] at hpre ⊢
  simp only [replace_all_aux, hpre, List.isEmpty_cons, Bool.not_false,
    Bool.true_and, if_pos]
  rw [show (p :: (pr ++ t)).drop (p :: pr).length = t from List.drop_left (p :: pr) t]

lemma replace_all_aux_fuel {pat rep : List Char} :
    ∀ (n m : Nat) (s : List Char), s.length ≤ n → s.length ≤ m →
      replace_all_aux n s pat rep = replace_all_aux m s pat rep := by
  intro n
  induction n with
  | zero =>
    intro m s hn _
    have : s = [] := List.length_eq_zero.mp (Nat.le_zero.mp hn)
    subst this
    rw [replace_all_aux_nil, replace_all_aux_nil]
  | succ k ih =>
    intro m s hn hm
    cases s with
    | nil => rw [replace_all_aux_nil, replace_all_aux_nil]
    | cons c rest =>
      obtain ⟨m2, rfl⟩ : ∃ m2, m = m2 + 1 := by
        cases m with
        | zero => simp at hm
        | succ m2 => exact ⟨m2, rfl⟩
      simp only [replace_all_aux]
      by_cases hcond : (!pat.isEmpty && pat.isPrefixOf (c :: rest)) = true
      · have hpat : pat.length ≥ 1 := by
          cases pat with
          | nil => simp at hcond
          | cons _ _ => simp
        rw [hcond]
        simp only [if_true]
        have hlen : ((c :: rest).drop pat.length).length ≤ rest.length := by
          simp only [List.length_drop, List.length_cons]
          omega
        simp only [List.length_cons] at hn hm
        exact congrArg (rep ++ ·) (ih m2 _ (by omega) (by omega))
      · rw [Bool.not_eq_true] at hcond
        rw [hcond]
        simp only [if_false, Bool.false_eq_true]
        simp only [List.length_cons] at hn hm
        exact congrArg (c :: ·) (ih m2 rest (by omega) (by omega))

lemma replace_all_cons_of_match {pat rep t : List Char} (hpat : pat ≠ []) :
    replace_all (pat ++ t) pat rep = rep ++ replace_all t pat rep := by
  have hlen : (pat ++ t).length = (pat.length - 1 + t.length) + 1 := by
    cases pat with
    | nil => exact absurd rfl hpat
    | cons _ _ => simp [List.length_append]
  unfold replace_all
  rw [hlen, replace_all_aux_cons_of_match hpat]
  exact congrArg (rep ++ ·) (replace_all_aux_fuel _ _ t (by omega) le_rfl)

lemma replace_all_of_not_occurs {pat rep s : List Char}
    (h : occurs_in pat s = false) : replace_all s pat rep = s :=
  replace_all_aux_of_not_occurs s.length s h

lemma occurs_in_append_right {pat t : List Char} (u : List Char)
    (h : occurs_in pat t = true) : occurs_in pat (u ++ t) = true := by
  induction u with
  | nil => simpa using h
  | cons c u2 ih => simp [occurs_in, ih]

lemma occurs_in_of_not_append {pat u t : List Char}
    (h : occurs_in pat (u ++ t) = false) : occurs_in pat t = false := by
  cases hoc : occurs_in pat t with
  | false => rfl
  | true => rw [occurs_in_append_right u hoc] at h; exact absurd h (by simp)

lemma occurs_in_of_match {pat s : List Char} (hpat : pat ≠ [])
    (h : pat.isPrefixOf s = true) : occurs_in pat s = true := by
  cases s with
  | nil =>
    have hp : pat <+: [] := ( List.isPrefixOf_iff_prefix).mp h
    exact absurd (List.prefix_nil.mp hp) hpat
  | cons c rest => simp [occurs_in, h]

/-- Counterexample to C5: a path that itself begins with the literal
placeholder token and is not under home.  `encode` keeps it verbatim, but
`decode` sees the leading token and substitutes the home directory, so the
round trip does not return the original path. -/
theorem codec_roundtrip_counterexample :
    deserialize_metadata_path "/home/u".data
        (serialize_metadata_path "/home/u".data "__user_home__x".data)
      ≠ "__user_home__x".data := by decide

/-- C5 amended: `decode(encode(path)) = path` holds for every path (home
relative or not) that does not contain the placeholder token and, when it
lies under home, whose home-stripped remainder does not contain the home
string again. -/
theorem codec_roundtrip (home s : List Char) (h0 : home ≠ [])
    (h1 : occurs_in USER_HOME_AMBIGUATION s = false)
    (h2 : home.isPrefixOf s = true → occurs_in home (s.drop home.length) = false) :
    deserialize_metadata_path home (serialize_metadata_path home s) = s := by
  unfold serialize_metadata_path
  by_cases hp : home.isPrefixOf s = true
  · rw [if_pos hp]
    have h2 := h2 hp
    obtain ⟨t, rfl⟩ := ( List.isPrefixOf_iff_prefix).mp hp
    rw [List.drop_left home t] at h2
    rw [replace_all_cons_of_match h0, replace_all_of_not_occurs h2]
    unfold deserialize_metadata_path
    have hph : USER_HOME_AMBIGUATION.isPrefixOf (USER_HOME_AMBIGUATION ++ t) = true :=
      ( List.isPrefixOf_iff_prefix).mpr (List.prefix_append _ _)
    rw [if_pos hph]
    have h1t : occurs_in USER_HOME_AMBIGUATION t = false := occurs_in_of_not_append h1
    rw [replace_all_cons_of_match (by decide : USER_HOME_AMBIGUATION ≠ []),
      replace_all_of_not_occurs h1t]
  · rw [if_neg hp]
    unfold deserialize_metadata_path
    have hph : USER_HOME_AMBIGUATION.isPrefixOf s = false := by
      cases hq : USER_HOME_AMBIGUATION.isPrefixOf s with
      | false => rfl
      | true =>
        rw [occurs_in_of_match (by decide) hq] at h1
        exact absurd h1 (by simp)
    rw [if_neg (by simp [hph])]

/-- Witness for the amended C5: a home-relative path round-trips. -/
theorem codec_roundtrip_witness :
    deserialize_metadata_path "/home/u".data
        (serialize_metadata_path "/home/u".data "/home/u/.bashrc".data)
      = "/home/u/.bashrc".data :=
  codec_roundtrip "/home/u".data "/home/u/.bashrc".data (by decide) (by decide)
    (by decide)

/-- Counterexample to C6: with home `/h`, the path `/h/x/h` is under home and
contains the home string a second time.  `encode` replaces both occurrences
with the placeholder token, not only the leading prefix, so the result is not
the token followed by the remainder `/x/h`. -/
theorem serialize_home_counterexample :
    serialize_metadata_path "/h".data "/h/x/h".data
        = USER_HOME_AMBIGUATION ++ "/x".data ++ USER_HOME_AMBIGUATION ∧
      serialize_metadata_path "/h".data "/h/x/h".data
        ≠ USER_HOME_AMBIGUATION ++ "/x/h".data := by
  constructor <;> decide

/-- C6 amended: for a path under the (non-empty) home directory, `encode`
replaces the home prefix with the placeholder token and then continues
replacing every further occurrence of the home string in the remainder; a
path not under the home directory is converted verbatim. -/
theorem serialize_spec (home t s : List Char) (h0 : home ≠ []) :
    serialize_metadata_path home (home ++ t)
        = USER_HOME_AMBIGUATION ++ replace_all t home USER_HOME_AMBIGUATION ∧
      (home.isPrefixOf s = false → serialize_metadata_path home s = s) := by
  constructor
  · unfold serialize_metadata_path
    have hp : home.isPrefixOf (home ++ t) = true :=
      ( List.isPrefixOf_iff_prefix).mpr (List.prefix_append _ _)
    rw [if_pos hp, replace_all_cons_of_match h0]
  · intro h
    unfold serialize_metadata_path
    rw [if_neg (by simp [h])]

/-- Witness for the amended C6 at concrete paths. -/
theorem serialize_spec_witness :
    serialize_metadata_path "/h".data ("/h".data ++ "/x".data)
        = USER_HOME_AMBIGUATION
            ++ replace_all "/x".data "/h".data USER_HOME_AMBIGUATION ∧
      serialize_metadata_path "/h".data "/y".data = "/y".data :=
  ⟨(serialize_spec "/h".data "/x".data "/y".data (by decide)).1,
   (serialize_spec "/h".data "/x".data "/y".data (by decide)).2 (by decide)⟩

end Conman
